import Mathlib

/-!
Shallow embedding of the two evaluation cores of the repository:
`src/oosiggen/ppval_fast_core.cpp` (piecewise-polynomial evaluation,
`ppvalFastCore`) and `src/oosiggen/non_uniform_resample_fast.cpp`
(zero-order-hold resampling, `nonUniformResampleFast`).

Doubles are modelled as rationals.  The arithmetic the claims exercise is
exact (comparisons, subtraction, multiply-add on the given values), so the
rational model reflects the double computation on these inputs.  An
out-of-bounds array read is modelled by an `Option`-valued result (`none`),
since in C it is undefined behaviour.
-/

/-- Embeds `std::lower_bound(&breaks[0], &breaks[num_breaks], x)` as used on
line 115 of `ppval_fast_core.cpp`: the index of the first entry that is not
less than `q` (the length when every entry is less than `q`).  This is the
contract of `std::lower_bound` on the sorted ranges the caller supplies. -/
def lowerBound : List ℚ → ℚ → ℕ
  | [], _ => 0
  | b :: bs, q => if b < q then lowerBound bs q + 1 else 0

/-- Embeds the bin search of `ppval_fast_core.cpp`, lines 102-117: clamp to
index `0` when `x <= breaks[0]`, to index `num_breaks - 1` when
`x > breaks[num_breaks - 1]`, and otherwise take `lower_bound` minus one. -/
def ppLookupIdx (breaks : List ℚ) (q : ℚ) : ℕ :=
  if q ≤ breaks.getD 0 0 then 0
  else if breaks.getD (breaks.length - 1) 0 < q then breaks.length - 1
  else lowerBound breaks q - 1

/-- The coefficient matrix handed to `ppval_fast_core.cpp`:
`numPolynomials` rows (`mxGetM`), `order` columns (`mxGetN`), stored as the
flat column-major buffer `data`, read as
`coefs[row + col * num_polynomials]` (line 125). -/
structure Coefs where
  numPolynomials : ℕ
  order : ℕ
  data : List ℚ
deriving DecidableEq

/-- Structural-recursion engine for `hornerAux`: the fuel counts the
remaining loop iterations, `ct.order - c`. -/
def hornerFuel (ct : Coefs) (i : ℕ) (d : ℚ) : ℕ → ℕ → ℚ → Option ℚ
  | 0, _, acc => some acc
  | fuel + 1, c, acc =>
    match ct.data.get? (i + c * ct.numPolynomials) with
    | none => none
    | some coef => hornerFuel ct i d fuel (c + 1) (d * acc + coef)

/-- Embeds the coefficient loop of `ppval_fast_core.cpp`, lines 122-126:
starting from column `c` with accumulator `acc`, repeatedly do
`acc = delta_x * acc + coefs[lookup_idx + coef_idx * num_polynomials]`
while `c < order`.  Returns `none` if a coefficient read is out of
bounds. -/
def hornerAux (ct : Coefs) (i : ℕ) (d : ℚ) (c : ℕ) (acc : ℚ) : Option ℚ :=
  hornerFuel ct i d (ct.order - c) c acc

/-- Embeds one iteration of the main loop of `ppval_fast_core.cpp`, lines
97-127: locate the bin for `q`, form `delta_x = x - breaks[lookup_idx]`,
seed the accumulator with `coefs[lookup_idx]` and run the coefficient
loop.  `none` models an out-of-bounds coefficient read. -/
def ppEvalAt (breaks : List ℚ) (ct : Coefs) (q : ℚ) : Option ℚ :=
  let i := ppLookupIdx breaks q
  let d := q - breaks.getD i 0
  match ct.data.get? i with
  | none => none
  | some c0 => hornerAux ct i d 1 c0

/-- The whole evaluation loop of `ppval_fast_core.cpp`: one output per
query, each produced independently from that query alone. -/
def ppvalFastCore (breaks : List ℚ) (ct : Coefs) (xx : List ℚ) : List (Option ℚ) :=
  xx.map (ppEvalAt breaks ct)

/-- Structural-recursion engine for `advance`: the fuel counts the
remaining in-range positions, `x.length - r`, so `fuel = 0` is exactly the
`ref_idx < x_length` test failing. -/
def advanceFuel (x : List ℚ) (q : ℚ) : ℕ → ℕ → ℕ
  | 0, r => r
  | fuel + 1, r => if x.getD r 0 ≤ q then advanceFuel x q fuel (r + 1) else r

/-- Embeds the `while` loop of `non_uniform_resample_fast.cpp`, lines
123-126: advance `ref_idx` while it is in range and `x[ref_idx] <= q`. -/
def advance (x : List ℚ) (q : ℚ) (r : ℕ) : ℕ :=
  advanceFuel x q (x.length - r) r

/-- Embeds the resampling loop of `non_uniform_resample_fast.cpp`, lines
112-142.  The cursor `r` is the mutable `ref_idx`, initialised once before
the loop and carried from one query to the next: after the `while` loop the
code either emits `(0, 0)` (cursor at zero, `continue` with the cursor
still zero) or decrements the cursor and copies that sample. -/
def resampleAux (x : List ℚ) (y : List (ℚ × ℚ)) : ℕ → List ℚ → List (ℚ × ℚ)
  | _, [] => []
  | r, q :: qs =>
    let r2 := advance x q r
    if r2 = 0 then (0, 0) :: resampleAux x y 0 qs
    else y.getD (r2 - 1) (0, 0) :: resampleAux x y (r2 - 1) qs

/-- The resampling core of `non_uniform_resample_fast.cpp`: samples are
pairs (real, imaginary), the cursor starts at `0`. -/
def nonUniformResampleFast (x : List ℚ) (y : List (ℚ × ℚ)) (xi : List ℚ) :
    List (ℚ × ℚ) :=
  resampleAux x y 0 xi

/-- The resampler together with the length validation the MEX gateway
performs before the core loop (`non_uniform_resample_fast.cpp`, lines
63-68): inputs whose axis and sample lengths differ are rejected. -/
def nonUniformResampleFastChecked (x : List ℚ) (y : List (ℚ × ℚ))
    (xi : List ℚ) : Option (List (ℚ × ℚ)) :=
  if x.length = y.length then some (nonUniformResampleFast x y xi) else none

/-- First index whose axis entry is strictly greater than `q` (the length
when no entry is).  For a sorted axis, `firstGT x q - 1` is the greatest
index whose entry is `≤ q`, and `firstGT x q = 0` means every entry
exceeds `q`. -/
def firstGT : List ℚ → ℚ → ℕ
  | [], _ => 0
  | b :: bs, q => if b ≤ q then firstGT bs q + 1 else 0

/-- The per-query value the resampler produces once the cursor state is
accounted for: zero fill when no axis entry is `≤ q`, otherwise the sample
at the greatest index whose axis entry is `≤ q`. -/
def stepSpecOne (x : List ℚ) (y : List (ℚ × ℚ)) (q : ℚ) : ℚ × ℚ :=
  if firstGT x q = 0 then (0, 0) else y.getD (firstGT x q - 1) (0, 0)

/-- Row `i` of the coefficient table, left to right over the columns, read
from the column-major buffer. -/
def rowOf (ct : Coefs) (i : ℕ) : List ℚ :=
  (List.range ct.order).map (fun c => ct.data.getD (i + c * ct.numPolynomials) 0)

/-- Nested multiplication over one coefficient row, highest-degree
coefficient first: seed with column 0, then `acc = d * acc + coefficient`
for each further column. -/
def hornerRow (row : List ℚ) (d : ℚ) : ℚ :=
  match row with
  | [] => 0
  | c0 :: rest => rest.foldl (fun acc co => d * acc + co) c0

example : ppvalFastCore [0, 1, 2] ⟨2, 2, [1, 1, 0, 1]⟩ [-1, 0, 1, 3/2, 5] =
    [some (-1), some 0, some 1, some (3/2), none] := by
  norm_num [ppvalFastCore, ppEvalAt, ppLookupIdx, lowerBound, hornerAux, hornerFuel]

example : nonUniformResampleFast [0, 1, 2] [(1, 0), (2, 0), (3, 0)]
    [-1, 0, 1/2, 2, 5] = [(0, 0), (1, 0), (1, 0), (3, 0), (3, 0)] := by
  norm_num [nonUniformResampleFast, resampleAux, advance, advanceFuel]

example : nonUniformResampleFast [0, 1, 2] [(1, 0), (2, 0), (3, 0)] [2, 0] =
    [(3, 0), (2, 0)] := by
  norm_num [nonUniformResampleFast, resampleAux, advance, advanceFuel]

example : nonUniformResampleFast [0, 1, 2] [(1, 0), (2, 0), (3, 0)] [1, -5] =
    [(2, 0), (1, 0)] := by
  norm_num [nonUniformResampleFast, resampleAux, advance, advanceFuel]

example : ([0, 1, 2] : List ℚ).Sorted (· ≤ ·) := by decide

/-! ### Generic index lemmas -/

/-- An in-range `getD` read is a member of the list. -/
theorem getD_mem {α : Type} (d : α) : ∀ (l : List α) (j : ℕ), j < l.length →
    l.getD j d ∈ l := by
  intro l
  induction l with
  | nil => intro j hj; simp at hj
  | cons b bs ih =>
    intro j hj
    cases j with
    | zero => simp
    | succ k =>
      simp only [List.getD_cons_succ]
      exact List.mem_cons_of_mem _ (ih k (by simpa using hj))

/-- An in-range `get?` read returns the `getD` value. -/
theorem get?_eq_some_getD {α : Type} (d : α) : ∀ (l : List α) (n : ℕ),
    n < l.length → l.get? n = some (l.getD n d) := by
  intro l
  induction l with
  | nil => intro n hn; simp at hn
  | cons a l ih =>
    intro n hn
    cases n with
    | zero => simp
    | succ k => simpa using ih k (by simpa using hn)

/-- Reading a mapped list at an in-range position maps the read value. -/
theorem getD_map_of_lt {α β : Type} (f : α → β) (d : β) (da : α) :
    ∀ (l : List α) (i : ℕ), i < l.length → (l.map f).getD i d = f (l.getD i da) := by
  intro l
  induction l with
  | nil => intro i hi; simp at hi
  | cons a l ih =>
    intro i hi
    cases i with
    | zero => simp
    | succ k => simpa using ih k (by simpa using hi)

/-- In a non-decreasing list, positions read through `getD` are ordered. -/
theorem sorted_getD_mono : ∀ (x : List ℚ), x.Sorted (· ≤ ·) →
    ∀ i j, i ≤ j → j < x.length → x.getD i 0 ≤ x.getD j 0 := by
  intro x
  induction x with
  | nil => intro _ i j _ hj; simp at hj
  | cons b bs ih =>
    intro hx i j hij hj
    rcases List.sorted_cons.mp hx with ⟨hb, hbs⟩
    cases i with
    | zero =>
      cases j with
      | zero => simp
      | succ k =>
        simp only [List.getD_cons_zero, List.getD_cons_succ]
        exact hb _ (getD_mem 0 bs k (by simpa using hj))
    | succ i' =>
      cases j with
      | zero => omega
      | succ k =>
        simp only [List.getD_cons_succ]
        exact ih hbs i' k (by omega) (by simpa using hj)

/-! ### The first axis entry strictly greater than a query -/

theorem firstGT_le_length (x : List ℚ) (q : ℚ) : firstGT x q ≤ x.length := by
  induction x with
  | nil => simp [firstGT]
  | cons b bs ih =>
    simp only [firstGT, List.length_cons]
    split <;> omega

theorem getD_le_of_lt_firstGT (x : List ℚ) (q : ℚ) :
    ∀ j, j < firstGT x q → x.getD j 0 ≤ q := by
  induction x with
  | nil => intro j hj; simp [firstGT] at hj
  | cons b bs ih =>
    intro j hj
    by_cases h : b ≤ q
    · simp only [firstGT, if_pos h] at hj
      cases j with
      | zero => simpa using h
      | succ k => simpa using ih k (by omega)
    · simp [firstGT, if_neg h] at hj

theorem lt_getD_firstGT (x : List ℚ) (q : ℚ) :
    firstGT x q < x.length → q < x.getD (firstGT x q) 0 := by
  induction x with
  | nil => intro h; simp at h
  | cons b bs ih =>
    intro h
    by_cases hb : b ≤ q
    · simp only [firstGT, if_pos hb] at h ⊢
      simpa using ih (by simpa using h)
    · simp only [firstGT, if_neg hb, List.getD_cons_zero]
      exact not_le.mp hb

theorem le_firstGT_of_le (x : List ℚ) (q : ℚ) :
    ∀ m, m ≤ x.length → (∀ j, j < m → x.getD j 0 ≤ q) → m ≤ firstGT x q := by
  induction x with
  | nil =>
    intro m hm _
    simp only [List.length_nil, Nat.le_zero] at hm
    simp [hm]
  | cons b bs ih =>
    intro m hm hpre
    cases m with
    | zero => exact Nat.zero_le _
    | succ k =>
      have hb : b ≤ q := by simpa using hpre 0 (by omega)
      simp only [firstGT, if_pos hb]
      have := ih k (by simpa using hm) (fun j hj => by simpa using hpre (j + 1) (by omega))
      omega

theorem lt_getD_of_firstGT_le (x : List ℚ) (q : ℚ) (hx : x.Sorted (· ≤ ·))
    (j : ℕ) (h1 : firstGT x q ≤ j) (h2 : j < x.length) : q < x.getD j 0 :=
  lt_of_lt_of_le (lt_getD_firstGT x q (lt_of_le_of_lt h1 h2))
    (sorted_getD_mono x hx _ j h1 h2)

/-- When every axis entry exceeds the query, no entry is at or before it. -/
theorem firstGT_eq_zero_of_all_gt (x : List ℚ) (q : ℚ)
    (hall : ∀ j, j < x.length → q < x.getD j 0) : firstGT x q = 0 := by
  by_contra h
  have h1 := firstGT_le_length x q
  have h2 : x.getD 0 0 ≤ q := getD_le_of_lt_firstGT x q 0 (by omega)
  exact absurd h2 (not_le.mpr (hall 0 (by omega)))

/-! ### The cursor loop of the resampler -/

/-- `advance` satisfies the recurrence of the `while` loop as written:
step while the cursor is in range and the axis entry is at most `q`. -/
theorem advance_unfold (x : List ℚ) (q : ℚ) (r : ℕ) :
    advance x q r =
      if r < x.length ∧ x.getD r 0 ≤ q then advance x q (r + 1) else r := by
  unfold advance
  rcases Nat.lt_or_ge r x.length with h | h
  · obtain ⟨fuel, hfuel⟩ : ∃ fuel, x.length - r = fuel + 1 := ⟨x.length - r - 1, by omega⟩
    rw [hfuel]
    simp only [advanceFuel]
    by_cases hq : x.getD r 0 ≤ q
    · rw [if_pos hq, if_pos ⟨h, hq⟩]
      have hfe : x.length - (r + 1) = fuel := by omega
      rw [hfe]
    · rw [if_neg hq, if_neg (fun hc => hq hc.2)]
  · have h0 : x.length - r = 0 := by omega
    rw [h0]
    simp only [advanceFuel]
    rw [if_neg (fun hc => absurd hc.1 (by omega))]

theorem advanceFuel_le_add (x : List ℚ) (q : ℚ) :
    ∀ (fuel r : ℕ), advanceFuel x q fuel r ≤ r + fuel := by
  intro fuel
  induction fuel with
  | zero => intro r; simp [advanceFuel]
  | succ n ih =>
    intro r
    simp only [advanceFuel]
    split
    · have := ih (r + 1); omega
    · omega

theorem advance_le_length (x : List ℚ) (q : ℚ) (r : ℕ) (hr : r ≤ x.length) :
    advance x q r ≤ x.length := by
  unfold advance
  have := advanceFuel_le_add x q (x.length - r) r
  omega

/-- When every index before the cursor carries an entry at most `q`, the
`while` loop stops exactly at the first entry strictly greater than `q`:
the carried cursor does not disturb the answer. -/
theorem advance_eq_firstGT :
    ∀ (fuel : ℕ) (x : List ℚ) (q : ℚ) (r : ℕ), x.length - r ≤ fuel →
      r ≤ x.length → (∀ j, j < r → x.getD j 0 ≤ q) →
      advance x q r = firstGT x q := by
  intro fuel
  induction fuel with
  | zero =>
    intro x q r hf hr hpre
    have hrl : r = x.length := by omega
    rw [advance_unfold, if_neg (fun hc => absurd hc.1 (by omega))]
    have h1 : r ≤ firstGT x q := le_firstGT_of_le x q r hr hpre
    have h2 := firstGT_le_length x q
    omega
  | succ n ih =>
    intro x q r hf hr hpre
    rw [advance_unfold]
    by_cases hc : r < x.length ∧ x.getD r 0 ≤ q
    · rw [if_pos hc]
      refine ih x q (r + 1) (by omega) (by omega) ?_
      intro j hj
      rcases Nat.lt_or_ge j r with h | h
      · exact hpre j h
      · have hjr : j = r := by omega
        rw [hjr]; exact hc.2
    · rw [if_neg hc]
      have h1 : r ≤ firstGT x q := le_firstGT_of_le x q r hr hpre
      rcases Nat.lt_or_ge r x.length with h | h
      · have hq : ¬ x.getD r 0 ≤ q := fun hq => hc ⟨h, hq⟩
        have h2 : firstGT x q ≤ r := by
          by_contra hcon
          exact hq (getD_le_of_lt_firstGT x q r (by omega))
        omega
      · have h2 := firstGT_le_length x q
        omega

/-- On a sorted query batch the carried-cursor loop computes, at every
position, the pure per-query value `stepSpecOne`. -/
theorem resampleAux_sorted_eq_map (x : List ℚ) (y : List (ℚ × ℚ)) :
    ∀ (qs : List ℚ) (r : ℕ), qs.Sorted (· ≤ ·) → r ≤ x.length →
      (∀ q ∈ qs, ∀ j, j < r → x.getD j 0 ≤ q) →
      resampleAux x y r qs = qs.map (stepSpecOne x y) := by
  intro qs
  induction qs with
  | nil => intro r _ _ _; simp [resampleAux]
  | cons q qs' ih =>
    intro r hs hr hpre
    rcases List.sorted_cons.mp hs with ⟨hq, hs'⟩
    have hadv : advance x q r = firstGT x q :=
      advance_eq_firstGT x.length x q r (by omega) hr
        (hpre q (List.mem_cons_self q qs'))
    simp only [resampleAux, hadv, List.map_cons]
    by_cases h0 : firstGT x q = 0
    · rw [if_pos h0]
      rw [stepSpecOne, if_pos h0]
      congr 1
      exact ih 0 hs' (Nat.zero_le _) (fun q' _ j hj => absurd hj (by omega))
    · rw [if_neg h0]
      rw [stepSpecOne, if_neg h0]
      congr 1
      refine ih (firstGT x q - 1) hs' (by have := firstGT_le_length x q; omega) ?_
      intro q' hq' j hj
      exact le_trans (getD_le_of_lt_firstGT x q j (by omega)) (hq q' hq')

theorem resampleAux_length (x : List ℚ) (y : List (ℚ × ℚ)) :
    ∀ (qs : List ℚ) (r : ℕ), (resampleAux x y r qs).length = qs.length := by
  intro qs
  induction qs with
  | nil => intro r; simp [resampleAux]
  | cons q qs' ih =>
    intro r
    simp only [resampleAux]
    split <;> simp [ih]

/-- Every value the resampling loop emits is the zero pair or an in-range
sample, provided axis and samples have the same length (which the gateway
validates). -/
theorem resampleAux_mem (x : List ℚ) (y : List (ℚ × ℚ))
    (hlen : x.length = y.length) :
    ∀ (qs : List ℚ) (r : ℕ), r ≤ x.length → ∀ v ∈ resampleAux x y r qs,
      v = (0, 0) ∨ ∃ j, j < y.length ∧ v = y.getD j (0, 0) := by
  intro qs
  induction qs with
  | nil => intro r _ v hv; simp [resampleAux] at hv
  | cons q qs' ih =>
    intro r hr v hv
    simp only [resampleAux] at hv
    by_cases h0 : advance x q r = 0
    · rw [if_pos h0] at hv
      rcases List.mem_cons.mp hv with h | h
      · left; exact h
      · exact ih 0 (Nat.zero_le _) v h
    · rw [if_neg h0] at hv
      have hle : advance x q r ≤ x.length := advance_le_length x q r hr
      rcases List.mem_cons.mp hv with h | h
      · right; exact ⟨advance x q r - 1, by omega, h⟩
      · exact ih (advance x q r - 1) (by omega) v h

/-- Position-wise form of `resampleAux_sorted_eq_map` for the whole
resampler. -/
theorem resample_getD (x : List ℚ) (y : List (ℚ × ℚ)) (xi : List ℚ)
    (hxi : xi.Sorted (· ≤ ·)) (i : ℕ) (hi : i < xi.length) :
    (nonUniformResampleFast x y xi).getD i (0, 0) =
      stepSpecOne x y (xi.getD i 0) := by
  rw [nonUniformResampleFast,
    resampleAux_sorted_eq_map x y xi 0 hxi (Nat.zero_le _)
      (fun q _ j hj => absurd hj (by omega))]
  exact getD_map_of_lt _ _ 0 xi i hi

/-- On a sorted axis, the greatest index whose entry is at most the query
pins down `firstGT` as its successor. -/
theorem firstGT_eq_succ_of_greatest (x : List ℚ) (q : ℚ) (hx : x.Sorted (· ≤ ·))
    (j : ℕ) (hj : j < x.length) (hle : x.getD j 0 ≤ q)
    (hmax : ∀ k, k < x.length → x.getD k 0 ≤ q → k ≤ j) :
    firstGT x q = j + 1 := by
  have h1 : j + 1 ≤ firstGT x q := by
    by_contra h
    have := lt_getD_of_firstGT_le x q hx j (by omega) hj
    exact absurd hle (not_le.mpr this)
  have h2 : firstGT x q ≤ j + 1 := by
    by_contra h
    have hlen := firstGT_le_length x q
    have hle1 : x.getD (j + 1) 0 ≤ q := getD_le_of_lt_firstGT x q (j + 1) (by omega)
    have := hmax (j + 1) (by omega) hle1
    omega
  omega

/-! ### The bin search of the polynomial evaluator -/

theorem lowerBound_le_length (x : List ℚ) (q : ℚ) : lowerBound x q ≤ x.length := by
  induction x with
  | nil => simp [lowerBound]
  | cons b bs ih =>
    simp only [lowerBound, List.length_cons]
    split <;> omega

theorem getD_lt_of_lt_lowerBound (x : List ℚ) (q : ℚ) :
    ∀ j, j < lowerBound x q → x.getD j 0 < q := by
  induction x with
  | nil => intro j hj; simp [lowerBound] at hj
  | cons b bs ih =>
    intro j hj
    by_cases h : b < q
    · simp only [lowerBound, if_pos h] at hj
      cases j with
      | zero => simpa using h
      | succ k => simpa using ih k (by omega)
    · simp [lowerBound, if_neg h] at hj

theorem le_lowerBound_of_lt (x : List ℚ) (q : ℚ) :
    ∀ m, m ≤ x.length → (∀ j, j < m → x.getD j 0 < q) → m ≤ lowerBound x q := by
  induction x with
  | nil =>
    intro m hm _
    simp only [List.length_nil, Nat.le_zero] at hm
    simp [hm]
  | cons b bs ih =>
    intro m hm hpre
    cases m with
    | zero => exact Nat.zero_le _
    | succ k =>
      have hb : b < q := by simpa using hpre 0 (by omega)
      simp only [lowerBound, if_pos hb]
      have := ih k (by simpa using hm) (fun j hj => by simpa using hpre (j + 1) (by omega))
      omega

theorem lowerBound_le_of_ge (x : List ℚ) (q : ℚ) :
    ∀ j, j < x.length → q ≤ x.getD j 0 → lowerBound x q ≤ j := by
  induction x with
  | nil => intro j hj; simp at hj
  | cons b bs ih =>
    intro j hj hq
    cases j with
    | zero =>
      simp only [List.getD_cons_zero] at hq
      simp [lowerBound, if_neg (not_lt.mpr hq)]
    | succ k =>
      by_cases h : b < q
      · simp only [lowerBound, if_pos h]
        have := ih k (by simpa using hj) (by simpa using hq)
        omega
      · simp [lowerBound, if_neg h]

theorem lowerBound_mono (x : List ℚ) (q1 q2 : ℚ) (h : q1 ≤ q2) :
    lowerBound x q1 ≤ lowerBound x q2 := by
  induction x with
  | nil => simp [lowerBound]
  | cons b bs ih =>
    simp only [lowerBound]
    by_cases h1 : b < q1
    · rw [if_pos h1, if_pos (lt_of_lt_of_le h1 h)]
      omega
    · rw [if_neg h1]
      exact Nat.zero_le _

/-- The first branch of the bin search: a query at or before the first
breakpoint is clamped to bin 0. -/
theorem ppLookupIdx_first (x : List ℚ) (q : ℚ) (h : q ≤ x.getD 0 0) :
    ppLookupIdx x q = 0 := by
  unfold ppLookupIdx
  rw [if_pos h]

/-- The interior branch of the bin search: when `Axis[i] < q <= Axis[i+1]`
on a sorted axis, the selected bin is exactly `i`. -/
theorem ppLookupIdx_interior (x : List ℚ) (q : ℚ) (hx : x.Sorted (· ≤ ·))
    (i : ℕ) (hi : i + 1 < x.length) (h1 : x.getD i 0 < q)
    (h2 : q ≤ x.getD (i + 1) 0) : ppLookupIdx x q = i := by
  have hx0 : x.getD 0 0 < q :=
    lt_of_le_of_lt (sorted_getD_mono x hx 0 i (Nat.zero_le _) (by omega)) h1
  have hxl : q ≤ x.getD (x.length - 1) 0 :=
    le_trans h2 (sorted_getD_mono x hx (i + 1) (x.length - 1) (by omega) (by omega))
  unfold ppLookupIdx
  rw [if_neg (not_le.mpr hx0), if_neg (not_lt.mpr hxl)]
  have hlb1 : lowerBound x q ≤ i + 1 := lowerBound_le_of_ge x q (i + 1) hi h2
  have hlb2 : i + 1 ≤ lowerBound x q :=
    le_lowerBound_of_lt x q (i + 1) (by omega)
      (fun j hj => lt_of_le_of_lt (sorted_getD_mono x hx j i (by omega) (by omega)) h1)
  omega

/-- Any query at or before the last breakpoint selects a bin index within
the coefficient rows, `[0, N-2]`. -/
theorem ppLookupIdx_le_sub_two (x : List ℚ) (q : ℚ) (hN : 2 ≤ x.length)
    (hq : q ≤ x.getD (x.length - 1) 0) : ppLookupIdx x q ≤ x.length - 2 := by
  unfold ppLookupIdx
  by_cases h0 : q ≤ x.getD 0 0
  · rw [if_pos h0]
    exact Nat.zero_le _
  · rw [if_neg h0, if_neg (not_lt.mpr hq)]
    have h2 : lowerBound x q ≤ x.length - 1 :=
      lowerBound_le_of_ge x q (x.length - 1) (by omega) hq
    omega

/-! ### The coefficient loop of the polynomial evaluator -/

/-- When every read it would perform is in bounds, the coefficient loop
computes the left fold of multiply-then-add over the listed columns. -/
theorem hornerFuel_eq_foldl (ct : Coefs) (i : ℕ) (d : ℚ) :
    ∀ (fuel c : ℕ) (acc : ℚ),
      (∀ k, c ≤ k → k < c + fuel → i + k * ct.numPolynomials < ct.data.length) →
      hornerFuel ct i d fuel c acc =
        some (((List.range' c fuel).map
          (fun k => ct.data.getD (i + k * ct.numPolynomials) 0)).foldl
            (fun a co => d * a + co) acc) := by
  intro fuel
  induction fuel with
  | zero => intro c acc _; simp [hornerFuel]
  | succ n ih =>
    intro c acc hin
    have hc : i + c * ct.numPolynomials < ct.data.length :=
      hin c (le_refl c) (by omega)
    have hget : ct.data.get? (i + c * ct.numPolynomials) =
        some (ct.data.getD (i + c * ct.numPolynomials) 0) :=
      get?_eq_some_getD 0 _ _ hc
    simp only [hornerFuel, hget]
    rw [ih (c + 1) _ (fun k hk1 hk2 => hin k (by omega) (by omega))]
    rw [List.range'_succ]
    simp [List.foldl]

/-- When the selected row is a valid coefficient row, the polynomial
evaluator returns exactly the nested multiplication of that row at the
local offset `q - Axis[i]`. -/
theorem ppEvalAt_eq_hornerRow (x : List ℚ) (ct : Coefs) (q : ℚ)
    (hO : 1 ≤ ct.order) (hdata : ct.data.length = ct.numPolynomials * ct.order)
    (hidx : ppLookupIdx x q < ct.numPolynomials) :
    ppEvalAt x ct q =
      some (hornerRow (rowOf ct (ppLookupIdx x q))
        (q - x.getD (ppLookupIdx x q) 0)) := by
  have hbound : ∀ k, k < ct.order →
      ppLookupIdx x q + k * ct.numPolynomials < ct.data.length := by
    intro k hk
    calc ppLookupIdx x q + k * ct.numPolynomials
        < ct.numPolynomials + k * ct.numPolynomials := by omega
      _ = (k + 1) * ct.numPolynomials := by ring
      _ ≤ ct.order * ct.numPolynomials := Nat.mul_le_mul_right _ (by omega)
      _ = ct.data.length := by rw [hdata]; ring
  have hi0 : ct.data.get? (ppLookupIdx x q) =
      some (ct.data.getD (ppLookupIdx x q) 0) := by
    refine get?_eq_some_getD 0 _ _ ?_
    have := hbound 0 hO
    omega
  simp only [ppEvalAt, hi0]
  rw [hornerAux, hornerFuel_eq_foldl ct _ _ (ct.order - 1) 1 _
    (fun k hk1 hk2 => hbound k (by omega))]
  obtain ⟨m, hm⟩ : ∃ m, ct.order = m + 1 := ⟨ct.order - 1, by omega⟩
  congr 1
  rw [rowOf, hm, List.range_eq_range', List.range'_succ]
  simp only [List.map_cons, hornerRow]
  simp

/-! ### Claim theorems -/

/-- Claim C1: the spec says a query beyond `Axis[N-1]` selects interval
index `N-2` (the last polynomial row) and evaluates at `d = q - Axis[N-2]`.
The code instead sets `lookup_idx = num_breaks - 1 = N-1` (line 111), even
though its own comment says "use last bin", whose row index is `N-2`.
With `Axis = [0,1,2]` (`N = 3`) and `q = 5` the bin search yields `2`
rather than `1`, and evaluating with that row index reads the coefficient
table out of bounds, so the embedded evaluation returns `none`. -/
theorem C1_clamp_selects_out_of_range_row :
    ppLookupIdx [0, 1, 2] 5 = 2 ∧
      ppEvalAt [0, 1, 2] ⟨2, 2, [1, 1, 0, 1]⟩ 5 = none := by
  refine ⟨by decide, ?_⟩
  norm_num [ppEvalAt, ppLookupIdx, lowerBound, hornerAux, hornerFuel]

/-- Claim C2 is false as stated: without an ordering assumption on the
query batch the carried cursor gives a wrong answer.  With sorted axis
`[0,1,2]`, samples of the same length and batch `[2, 0]`, the query `0` at
position 1 has greatest covering index `j = 0`, yet the output at position
1 is not `Samples[0]`. -/
theorem C2_counterexample : ¬ (∀ (x : List ℚ) (y : List (ℚ × ℚ)) (xi : List ℚ),
    x.Sorted (· ≤ ·) → y.length = x.length →
    ∀ i, i < xi.length → ∀ j, j < x.length → x.getD j 0 ≤ xi.getD i 0 →
      (∀ k, k < x.length → x.getD k 0 ≤ xi.getD i 0 → k ≤ j) →
      (nonUniformResampleFast x y xi).getD i (0, 0) = y.getD j (0, 0)) := by
  intro h
  have hinst := h [0, 1, 2] [(1, 0), (2, 0), (3, 0)] [2, 0] (by decide) (by decide)
    1 (by decide) 0 (by decide) (by decide) (by decide)
  have hval : (nonUniformResampleFast [0, 1, 2] [(1, 0), (2, 0), (3, 0)]
      [2, 0]).getD 1 (0, 0) = (2, 0) := by
    norm_num [nonUniformResampleFast, resampleAux, advance, advanceFuel]
  rw [hval] at hinst
  norm_num at hinst

/-- Claim C2 amended: with the added precondition that the query batch is
sorted non-decreasing, every query point with some axis entry at or before
it receives the sample at the greatest index whose axis entry does not
exceed it. -/
theorem C2_amended_sorted_batch (x : List ℚ) (y : List (ℚ × ℚ)) (xi : List ℚ)
    (hx : x.Sorted (· ≤ ·)) (hlen : y.length = x.length)
    (hxi : xi.Sorted (· ≤ ·)) (i : ℕ) (hi : i < xi.length)
    (j : ℕ) (hj : j < x.length) (hle : x.getD j 0 ≤ xi.getD i 0)
    (hmax : ∀ k, k < x.length → x.getD k 0 ≤ xi.getD i 0 → k ≤ j) :
    (nonUniformResampleFast x y xi).getD i (0, 0) = y.getD j (0, 0) := by
  have hfg := firstGT_eq_succ_of_greatest x _ hx j hj hle hmax
  rw [resample_getD x y xi hxi i hi, stepSpecOne, hfg]
  simp

theorem C2_witness :
    (nonUniformResampleFast [0, 1, 2] [(1, 0), (2, 0), (3, 0)] [0, 2]).getD 1 (0, 0) =
      [((1 : ℚ), (0 : ℚ)), (2, 0), (3, 0)].getD 2 (0, 0) :=
  C2_amended_sorted_batch [0, 1, 2] [(1, 0), (2, 0), (3, 0)] [0, 2]
    (by decide) (by decide) (by decide) 1 (by decide) 2 (by decide) (by decide)
    (by decide)

/-- Claim C3 is false as stated for the resampler: two runs with the same
axis and samples whose batches agree at position 1 (query `0`) but differ
at position 0 produce different outputs at position 1, because the cursor
left behind by the earlier query differs. -/
theorem C3_counterexample :
    ([2, 0] : List ℚ).getD 1 0 = ([-1, 0] : List ℚ).getD 1 0 ∧
    (nonUniformResampleFast [0, 1, 2] [(1, 0), (2, 0), (3, 0)] [2, 0]).getD 1 (0, 0) ≠
      (nonUniformResampleFast [0, 1, 2] [(1, 0), (2, 0), (3, 0)] [-1, 0]).getD 1 (0, 0) := by
  refine ⟨by decide, ?_⟩
  norm_num [nonUniformResampleFast, resampleAux, advance, advanceFuel]

/-- Claim C3 amended: the polynomial evaluator is pointwise independent of
the other query points unconditionally; the resampler is pointwise
independent when both query batches are sorted non-decreasing (with an
unsorted batch the carried cursor makes an output depend on earlier query
points). -/
theorem C3_amended_pointwise_independence :
    (∀ (breaks : List ℚ) (ct : Coefs) (xx xx' : List ℚ) (i : ℕ),
      i < xx.length → i < xx'.length → xx.getD i 0 = xx'.getD i 0 →
      (ppvalFastCore breaks ct xx).getD i none =
        (ppvalFastCore breaks ct xx').getD i none) ∧
    (∀ (x : List ℚ) (y : List (ℚ × ℚ)) (xi xi' : List ℚ) (i : ℕ),
      xi.Sorted (· ≤ ·) → xi'.Sorted (· ≤ ·) → i < xi.length → i < xi'.length →
      xi.getD i 0 = xi'.getD i 0 →
      (nonUniformResampleFast x y xi).getD i (0, 0) =
        (nonUniformResampleFast x y xi').getD i (0, 0)) := by
  constructor
  · intro breaks ct xx xx' i hi hi' hq
    rw [ppvalFastCore, ppvalFastCore, getD_map_of_lt (ppEvalAt breaks ct) none 0 xx i hi,
      getD_map_of_lt (ppEvalAt breaks ct) none 0 xx' i hi', hq]
  · intro x y xi xi' i hxi hxi' hi hi' hq
    rw [resample_getD x y xi hxi i hi, resample_getD x y xi' hxi' i hi', hq]

theorem C3_witness :
    (ppvalFastCore [0, 1, 2] ⟨2, 2, [1, 1, 0, 1]⟩ [1, 7]).getD 0 none =
      (ppvalFastCore [0, 1, 2] ⟨2, 2, [1, 1, 0, 1]⟩ [1, 2]).getD 0 none :=
  C3_amended_pointwise_independence.1 [0, 1, 2] ⟨2, 2, [1, 1, 0, 1]⟩ [1, 7] [1, 2]
    0 (by decide) (by decide) (by decide)

/-- Claim C4 is false as stated: with sorted axis `[0,1,2]` and batch
`[1, -5]`, the query `-5` at position 1 is strictly below every axis
entry, yet the output there is `Samples[0]`, not `(0, 0)`: the cursor left
at 1 by the earlier query prevents the `ref_idx == 0` zero-fill branch. -/
theorem C4_counterexample : ¬ (∀ (x : List ℚ) (y : List (ℚ × ℚ)) (xi : List ℚ),
    x.Sorted (· ≤ ·) → y.length = x.length → ∀ i, i < xi.length →
      (∀ j, j < x.length → xi.getD i 0 < x.getD j 0) →
      (nonUniformResampleFast x y xi).getD i (0, 0) = (0, 0)) := by
  intro h
  have hinst := h [0, 1, 2] [(1, 0), (2, 0), (3, 0)] [1, -5] (by decide) (by decide)
    1 (by decide) (by decide)
  have hval : (nonUniformResampleFast [0, 1, 2] [(1, 0), (2, 0), (3, 0)]
      [1, -5]).getD 1 (0, 0) = (1, 0) := by
    norm_num [nonUniformResampleFast, resampleAux, advance, advanceFuel]
  rw [hval] at hinst
  norm_num at hinst

/-- Claim C4 amended: with the added precondition that the query batch is
sorted non-decreasing, a query strictly below every axis entry (including
the empty-axis case) yields `(0, 0)`, and the batch is still processed in
full (one output per query). -/
theorem C4_amended_sorted_batch (x : List ℚ) (y : List (ℚ × ℚ)) (xi : List ℚ)
    (hx : x.Sorted (· ≤ ·)) (hxi : xi.Sorted (· ≤ ·)) (i : ℕ)
    (hi : i < xi.length)
    (hall : ∀ j, j < x.length → xi.getD i 0 < x.getD j 0) :
    (nonUniformResampleFast x y xi).getD i (0, 0) = (0, 0) ∧
      (nonUniformResampleFast x y xi).length = xi.length := by
  constructor
  · rw [resample_getD x y xi hxi i hi, stepSpecOne,
      if_pos (firstGT_eq_zero_of_all_gt x _ hall)]
  · exact resampleAux_length x y xi 0

theorem C4_witness :
    (nonUniformResampleFast [0, 1, 2] [(1, 0), (2, 0), (3, 0)] [-3, -2]).getD 0 (0, 0) =
        (0, 0) ∧
      (nonUniformResampleFast [0, 1, 2] [(1, 0), (2, 0), (3, 0)] [-3, -2]).length =
        ([-3, -2] : List ℚ).length :=
  C4_amended_sorted_batch [0, 1, 2] [(1, 0), (2, 0), (3, 0)] [-3, -2]
    (by decide) (by decide) 0 (by decide) (by decide)

/-- Claim C5 is false as stated: on the spec's boundary scenario the fifth
output is not `4`.  The query `5` exceeds the last breakpoint, the bin
search clamps to row index `2` of the 2-row table, and the coefficient
loop reads past the end of the buffer, so the embedded run produces `none`
at that position (and the spec's own clamping rule would give `5`, not
`4`). -/
theorem C5_counterexample :
    ppvalFastCore [0, 1, 2] ⟨2, 2, [1, 1, 0, 1]⟩ [-1, 0, 1, 3/2, 5] ≠
      [some (-1), some 0, some 1, some (3/2), some 4] := by
  norm_num [ppvalFastCore, ppEvalAt, ppLookupIdx, lowerBound, hornerAux, hornerFuel]
  decide

/-- Claim C5 amended: on the boundary scenario the first four outputs are
`[-1, 0, 1, 1.5]` and the fifth query performs an out-of-bounds
coefficient read (embedded as `none`) instead of producing a value. -/
theorem C5_amended_boundary_scenario :
    ppvalFastCore [0, 1, 2] ⟨2, 2, [1, 1, 0, 1]⟩ [-1, 0, 1, 3/2, 5] =
      [some (-1), some 0, some 1, some (3/2), none] := by
  norm_num [ppvalFastCore, ppEvalAt, ppLookupIdx, lowerBound, hornerAux, hornerFuel]

/-- Claim C6: for a sorted axis of length at least two, a well-formed
coefficient table and a query at most the last breakpoint, the evaluator
returns the nested multiplication (Horner) of the selected row at
`d = q - Axis[i]`, where `i = 0` when `q <= Axis[0]` and otherwise `i` is
the index with `Axis[i] < q <= Axis[i+1]`. -/
theorem C6_horner_refinement (x : List ℚ) (ct : Coefs) (q : ℚ)
    (hx : x.Sorted (· ≤ ·)) (hN : 2 ≤ x.length) (hO : 1 ≤ ct.order)
    (hNP : ct.numPolynomials = x.length - 1)
    (hdata : ct.data.length = ct.numPolynomials * ct.order)
    (hq : q ≤ x.getD (x.length - 1) 0) :
    (q ≤ x.getD 0 0 →
      ppEvalAt x ct q = some (hornerRow (rowOf ct 0) (q - x.getD 0 0))) ∧
    (∀ i, i + 1 < x.length → x.getD i 0 < q → q ≤ x.getD (i + 1) 0 →
      ppEvalAt x ct q = some (hornerRow (rowOf ct i) (q - x.getD i 0))) := by
  have hle := ppLookupIdx_le_sub_two x q hN hq
  have hidx : ppLookupIdx x q < ct.numPolynomials := by omega
  constructor
  · intro h0
    have hl := ppLookupIdx_first x q h0
    rw [ppEvalAt_eq_hornerRow x ct q hO hdata hidx, hl]
  · intro i hi h1 h2
    have hl := ppLookupIdx_interior x q hx i hi h1 h2
    rw [ppEvalAt_eq_hornerRow x ct q hO hdata hidx, hl]

theorem C6_witness :
    ppEvalAt [0, 1, 2] ⟨2, 2, [1, 1, 0, 1]⟩ 1 =
      some (hornerRow (rowOf ⟨2, 2, [1, 1, 0, 1]⟩ 0)
        (1 - ([0, 1, 2] : List ℚ).getD 0 0)) :=
  (C6_horner_refinement [0, 1, 2] ⟨2, 2, [1, 1, 0, 1]⟩ 1 (by decide) (by decide)
    (by decide) (by decide) (by decide) (by decide)).2 0 (by decide) (by decide)
    (by decide)

/-- Claim C7: under the caller contract (`N >= 2`, `O >= 1`, sorted axis,
well-formed table) and for a query at most the last breakpoint, the
selected row index stays within `[0, N-2]` and every coefficient read is
in bounds, so the `Option`-valued embedding returns a value.  The
guarantee does not extend past the last breakpoint: the concrete query `5`
beyond `Axis = [0,1,2]` makes the embedded evaluation hit the
out-of-bounds branch. -/
theorem C7_inbounds_under_contract :
    (∀ (x : List ℚ) (ct : Coefs) (q : ℚ), x.Sorted (· ≤ ·) → 2 ≤ x.length →
      1 ≤ ct.order → ct.numPolynomials = x.length - 1 →
      ct.data.length = ct.numPolynomials * ct.order →
      q ≤ x.getD (x.length - 1) 0 →
      ppLookupIdx x q ≤ x.length - 2 ∧ (ppEvalAt x ct q).isSome = true) ∧
    ppEvalAt [0, 1, 2] ⟨2, 2, [1, 1, 0, 1]⟩ 5 = none := by
  constructor
  · intro x ct q hx hN hO hNP hdata hq
    have hle := ppLookupIdx_le_sub_two x q hN hq
    refine ⟨hle, ?_⟩
    rw [ppEvalAt_eq_hornerRow x ct q hO hdata (by omega)]
    rfl
  · norm_num [ppEvalAt, ppLookupIdx, lowerBound, hornerAux, hornerFuel]

theorem C7_witness :
    ppLookupIdx [0, 1, 2] 1 ≤ ([0, 1, 2] : List ℚ).length - 2 ∧
      (ppEvalAt [0, 1, 2] ⟨2, 2, [1, 1, 0, 1]⟩ 1).isSome = true :=
  C7_inbounds_under_contract.1 [0, 1, 2] ⟨2, 2, [1, 1, 0, 1]⟩ 1 (by decide)
    (by decide) (by decide) (by decide) (by decide) (by decide)

/-- Claim C8: when the query batch is sorted non-decreasing (and the axis
is sorted with samples of matching length, per the data model), the
resampler meets Convention A at every position: `(0, 0)` when the query
precedes every axis entry, otherwise the sample at the greatest index
whose axis entry does not exceed the query. -/
theorem C8_convention_A_on_sorted_batch (x : List ℚ) (y : List (ℚ × ℚ))
    (xi : List ℚ) (hx : x.Sorted (· ≤ ·)) (hlen : y.length = x.length)
    (hxi : xi.Sorted (· ≤ ·)) (i : ℕ) (hi : i < xi.length) :
    ((∀ j, j < x.length → xi.getD i 0 < x.getD j 0) →
      (nonUniformResampleFast x y xi).getD i (0, 0) = (0, 0)) ∧
    (∀ j, j < x.length → x.getD j 0 ≤ xi.getD i 0 →
      (∀ k, k < x.length → x.getD k 0 ≤ xi.getD i 0 → k ≤ j) →
      (nonUniformResampleFast x y xi).getD i (0, 0) = y.getD j (0, 0)) := by
  constructor
  · intro hall
    rw [resample_getD x y xi hxi i hi, stepSpecOne,
      if_pos (firstGT_eq_zero_of_all_gt x _ hall)]
  · intro j hj hle hmax
    have hfg := firstGT_eq_succ_of_greatest x _ hx j hj hle hmax
    rw [resample_getD x y xi hxi i hi, stepSpecOne, hfg]
    simp

theorem C8_witness :
    (nonUniformResampleFast [0, 1, 2] [(1, 0), (2, 0), (3, 0)] [1]).getD 0 (0, 0) =
      [((1 : ℚ), (0 : ℚ)), (2, 0), (3, 0)].getD 1 (0, 0) :=
  (C8_convention_A_on_sorted_batch [0, 1, 2] [(1, 0), (2, 0), (3, 0)] [1]
    (by decide) (by decide) (by decide) 0 (by decide)).2 1 (by decide) (by decide)
    (by decide)

/-- Claim C9: for a non-decreasing axis, the bin index the polynomial
evaluator selects is monotone in the query: `q1 <= q2` gives
`lookup(q1) <= lookup(q2)`. -/
theorem C9_lookup_monotone (x : List ℚ) (q1 q2 : ℚ) (hx : x.Sorted (· ≤ ·))
    (hN : 1 ≤ x.length) (h : q1 ≤ q2) :
    ppLookupIdx x q1 ≤ ppLookupIdx x q2 := by
  unfold ppLookupIdx
  by_cases h2a : q2 ≤ x.getD 0 0
  · rw [if_pos h2a, if_pos (le_trans h h2a)]
  · rw [if_neg h2a]
    by_cases h1a : q1 ≤ x.getD 0 0
    · rw [if_pos h1a]
      exact Nat.zero_le _
    · rw [if_neg h1a]
      by_cases h2b : x.getD (x.length - 1) 0 < q2
      · rw [if_pos h2b]
        by_cases h1b : x.getD (x.length - 1) 0 < q1
        · rw [if_pos h1b]
        · rw [if_neg h1b]
          have := lowerBound_le_length x q1
          omega
      · rw [if_neg h2b]
        have h1b : ¬ x.getD (x.length - 1) 0 < q1 :=
          fun hc => h2b (lt_of_lt_of_le hc h)
        rw [if_neg h1b]
        have := lowerBound_mono x q1 q2 h
        omega

theorem C9_witness : ppLookupIdx [0, 1, 2] 0 ≤ ppLookupIdx [0, 1, 2] 5 :=
  C9_lookup_monotone [0, 1, 2] 0 5 (by decide) (by decide) (by decide)

/-- Claim C10: for any inputs the gateway accepts (axis and samples of
equal length; no sortedness assumed anywhere), every output element is
either exactly `(0, 0)` or a verbatim copy of some in-range sample — never
a blend. -/
theorem C10_output_zero_or_copy (x : List ℚ) (y : List (ℚ × ℚ)) (xi : List ℚ)
    (out : List (ℚ × ℚ)) (h : nonUniformResampleFastChecked x y xi = some out) :
    ∀ v ∈ out, v = (0, 0) ∨ ∃ j, j < y.length ∧ v = y.getD j (0, 0) := by
  rw [nonUniformResampleFastChecked] at h
  by_cases hlen : x.length = y.length
  · rw [if_pos hlen] at h
    have hout := Option.some.inj h
    intro v hv
    rw [← hout] at hv
    exact resampleAux_mem x y hlen xi 0 (Nat.zero_le _) v hv
  · rw [if_neg hlen] at h
    exact absurd h (by simp)

theorem C10_witness :
    ((5 : ℚ), (6 : ℚ)) = (0, 0) ∨
      ∃ j, j < ([((5 : ℚ), (6 : ℚ))] : List (ℚ × ℚ)).length ∧
        ((5 : ℚ), (6 : ℚ)) = [((5 : ℚ), (6 : ℚ))].getD j (0, 0) :=
  C10_output_zero_or_copy [0] [(5, 6)] [1] [(5, 6)] (by decide) (5, 6) (by decide)
